import Mathlib

/-!
Verification development for the Simple-Parser LL(1)/LR(1) table tracer
(`simple_parser.py`).  Python strings are modelled as `List Char`; Python
dicts keyed by strings are modelled as association lists with first-match
lookup; the unbounded `while` loops are modelled with explicit fuel, with a
three-valued run status (finished normally / crashed with an uncaught
exception / fuel exhausted).
-/

set_option maxRecDepth 4000

abbrev Str := List Char

/-- Constant `ID_SYMBOL = "#"` from the source. -/
def idSymbol : Char := '#'

/-- The end-marker symbol `"$"` used by the LL driver. -/
def dollar : Str := ['$']

/-- The epsilon marker `"ϵ"` compared against productions before pushing. -/
def epsMark : Str := ['ϵ']

/-- Normalization `input.replace("id", ID_SYMBOL)`: Python `str.replace`, scanning left to
right without rescanning replaced text. -/
def normalizeId : Str → Str
  | 'i' :: 'd' :: rest => idSymbol :: normalizeId rest
  | c :: rest => c :: normalizeId rest
  | [] => []

/-- Python `dict.get` on an association list (first match wins). -/
def lookupStr {α : Type} : List (Str × α) → Str → Option α
  | [], _ => none
  | (k, v) :: rest, key => if k = key then some v else lookupStr rest key

/-- Python `list.remove(v)`: delete the first occurrence of `v`. -/
def removeFirst : List Str → Str → List Str
  | [], _ => []
  | x :: rest, v => if x = v then rest else x :: removeFirst rest v

/-- The `LL` dataclass: start symbol, start rule, and the LL(1) table. -/
structure LL where
  start_symbol : Str
  start_rule : Str
  table : List (Str × List (Str × Str))
deriving DecidableEq

/-- The `ACTION` column written by `evaluate_ll_input`, one constructor per
format string in the source, carrying the interpolated data. -/
inductive LLAction where
  /-- Action `f"{ll.start_symbol}->{ll.start_rule}"` (step 1). -/
  | startExp (sym rule : Str)
  /-- Action `"ACCEPTED"`. -/
  | accepted
  /-- Action `f"Match and remove {queue_item}"`. -/
  | matchRemove (sym : Str)
  /-- Action `f"{stack_item}->{production}"`. -/
  | applyProd (nt prod : Str)
  /-- Action `REJECTED (... doesn't have an action/step for ...)`. -/
  | rejectNoEntry (nt la : Str)
  /-- Action `REJECTED (... not found in LL(1) parsing table)`. -/
  | rejectNoRow (s : Str)
deriving DecidableEq

/-- One row of the LL trace: step number, `"".join(stack)`,
`"".join(queue)`, and the action. -/
structure LLRecord where
  no : Nat
  stackS : Str
  inputS : Str
  action : LLAction
deriving DecidableEq

/-- Mutable state of one LL run.  The stack is stored top-first (the Python
list keeps the top last), the queue head-first as in the source. -/
structure LLState where
  stack : List Str
  queue : List Str
  step : Nat
deriving DecidableEq

/-- Serialize a record exactly as the loop body does, from the state as it
was before this step's mutation (`"".join(stack)` joins bottom-to-top, hence
the reverse under the top-first representation). -/
def mkLLRec (s : LLState) (a : LLAction) : LLRecord :=
  ⟨s.step, s.stack.reverse.flatten, s.queue.flatten, a⟩

inductive LLStepRes where
  /-- The loop body ran and the run continues with a new state. -/
  | cont (r : LLRecord) (s : LLState)
  /-- The loop body ran and set `evaluation_finished`. -/
  | done (r : LLRecord)
  /-- An uncaught `IndexError` (`pop` of an empty stack or `queue[0]` of an
  empty queue). -/
  | crash
deriving DecidableEq

/-- One iteration of the `while` loop of `evaluate_ll_input`. -/
def llStep (ll : LL) (s : LLState) : LLStepRes :=
  if s.step = 1 then
    .cont (mkLLRec s (.startExp ll.start_symbol ll.start_rule))
      ⟨(ll.start_rule.map fun c => [c]) ++ s.stack, s.queue, s.step + 1⟩
  else
    match s.stack with
    | [] => .crash
    | x :: rest =>
      match s.queue with
      | [] => .crash
      | t :: q =>
        if x = dollar ∧ t = dollar then
          .done (mkLLRec s .accepted)
        else if x = t then
          .cont (mkLLRec s (.matchRemove t)) ⟨rest, removeFirst (t :: q) t, s.step + 1⟩
        else
          match lookupStr ll.table x with
          | none => .done (mkLLRec s (.rejectNoRow x))
          | some prods =>
            match lookupStr prods t with
            | none => .done (mkLLRec s (.rejectNoEntry x t))
            | some prod =>
              .cont (mkLLRec s (.applyProd x prod))
                ⟨(if prod = epsMark then [] else prod.map fun c => [c]) ++ rest,
                  t :: q, s.step + 1⟩

/-- How a fuelled run ended. -/
inductive Status where
  | finished
  | crashed
  | fuel
deriving DecidableEq

/-- The `while` loop of `evaluate_ll_input`, with fuel: returns the trace
appended so far together with the status. -/
def llRun (ll : LL) (s : LLState) : Nat → List LLRecord × Status
  | 0 => ([], .fuel)
  | f + 1 =>
    match llStep ll s with
    | .done r => ([r], .finished)
    | .crash => ([], .crashed)
    | .cont r s' => (r :: (llRun ll s' f).1, (llRun ll s' f).2)

/-- Initial state: `queue = [symbol for symbol in input]` on the normalized
input, `stack = ["$"]`, `step_counter = 1`.  The source appends no end
marker to the queue. -/
def llInit (input : Str) : LLState :=
  ⟨[dollar], (normalizeId input).map fun c => [c], 1⟩

/-- The function `evaluate_ll_input`, fuelled. -/
def evaluate_ll_input (ll : LL) (input : Str) (fuel : Nat) :
    List LLRecord × Status :=
  llRun ll (llInit input) fuel

/-- The `LR` dataclass: start state and the LR(1) table. -/
structure LR where
  start_state : Str
  table : List (Str × List (Str × Str))
deriving DecidableEq

/-- One element of the `compounds` list: a dict that may carry a `"state"`
key (settled) and a `"symbol"` key.  Every compound the source ever builds
has a `"symbol"` key, but the source guards each access, so the field stays
an `Option`. -/
structure Compound where
  state : Option Str
  symbol : Option Str
deriving DecidableEq

/-- The string literal `"accept"` compared case-insensitively. -/
def acceptLit : Str := "accept".toList

/-- The state-name marker `"State_"`. -/
def stateTag : Str := "State_".toList

/-- Python `str.lower()` (the action strings are ASCII). -/
def lowerStr (s : Str) : Str := s.map Char.toLower

/-- Python `str.startswith(pat)`. -/
def startsWithTag : Str → Str → Bool
  | [], _ => true
  | _ :: _, [] => false
  | p :: ps, c :: cs => if p = c then startsWithTag ps cs else false

/-- Python `"->" in s`. -/
def hasArrow : Str → Bool
  | '-' :: '>' :: _ => true
  | _ :: rest => hasArrow rest
  | [] => false

/-- Python `s.replace("State_", "")` (left to right, no rescan). -/
def removeStateTag : Str → Str
  | 'S' :: 't' :: 'a' :: 't' :: 'e' :: '_' :: rest => removeStateTag rest
  | c :: rest => c :: removeStateTag rest
  | [] => []

/-- Python list indexing `l[i]` including the negative-index wraparound;
`none` models an `IndexError`. -/
def pyIdx {α : Type} (l : List α) (i : Int) : Option α :=
  if 0 ≤ i then
    if i < (l.length : Int) then l[i.toNat]? else none
  else
    if 0 ≤ (l.length : Int) + i then l[((l.length : Int) + i).toNat]? else none

/-- The `for i, temp_compound in enumerate(temp_compounds)` scan: index and
value of the first compound whose `"state"` is absent. -/
def findPend : List Compound → Option (Nat × Compound)
  | [] => none
  | c :: rest =>
    if c.state = none then some (0, c)
    else (findPend rest).map fun p => (p.1 + 1, p.2)

/-- Python `list.insert(n, x)` for `0 ≤ n`. -/
def insertAt {α : Type} (l : List α) (n : Nat) (x : α) : List α :=
  l.take n ++ x :: l.drop n

/-- The `ACTION` column written by `evaluate_lr_input`, one constructor per
format string in the source. -/
inductive LRAct where
  /-- Action `"ACCEPTED"`. -/
  | accepted
  /-- Action `f"Shift to {target}"`. -/
  | shiftTo (target : Str)
  /-- Action `f"Reverse {action}"` (set for every action containing `"->"`,
  kept even when the symbol match fails). -/
  | reverse (a : Str)
  /-- Action `REJECTED (Previous symbol not found in compounds)`. -/
  | rejPrevSymbol
  /-- Action `REJECTED (Incorrect action/step for symbol in state)`. -/
  | rejIncorrect (symbol state : Str)
  /-- Action `REJECTED (state does not have an action/step for symbol)`. -/
  | rejNoAction (state symbol : Str)
  /-- Action `REJECTED (Previous state actions/steps not found in LR(1) table)`. -/
  | rejStateRow
  /-- Action `REJECTED (Previous state not found in compounds)`. -/
  | rejPrevState
  /-- Action `REJECTED (symbol not found in compounds)` (pending compound without a
  `"symbol"` key; unreachable for compounds the source builds). -/
  | rejSymbolNone
  /-- Action `REJECTED (One or more symbols missing in compounds)` (set by the
  serialization loop; likewise unreachable). -/
  | rejSymbolsMissing
deriving DecidableEq

/-- One row of the LR trace. -/
structure LRRecord where
  no : Nat
  read : Option Str
  action : Option LRAct
  stateStack : Str
  inputS : Str
deriving DecidableEq

/-- Result of the reduction-match loop
(`for j in range(1, len(symbols_to_delete) + 1)`). -/
inductive ScanRes where
  /-- Loop ran to completion with `action_is_valid` still `True`;
  carries `compounds_to_delete` in collection order. -/
  | valid (toDel : List Compound)
  /-- A compared symbol differed (`action_is_valid = False`, `break`). -/
  | invalid
  /-- A scanned compound had no `"symbol"` key (REJECT branch). -/
  | rejPrevSym
  /-- Crash: `temp_compounds[i - j]` raised `IndexError`. -/
  | crash
deriving DecidableEq

/-- The match loop: at constructor `m + 1` the Python loop variable is
`j = k - m`, the compared right-hand-side character is
`symbols_to_delete[len - j] = rhs[m]`, and the inspected compound is
`temp_compounds[i - j]`. -/
def scanReduceGo (cs : List Compound) (i : Int) (rhs : Str) (k : Nat) :
    Nat → List Compound → ScanRes
  | 0, acc => .valid acc
  | m + 1, acc =>
    match pyIdx cs (i - ((k - m : Nat) : Int)) with
    | none => .crash
    | some c =>
      match c.symbol with
      | none => .rejPrevSym
      | some sym =>
        if sym = [rhs.getD m ' '] then scanReduceGo cs i rhs k m (acc ++ [c])
        else .invalid

/-- The whole match loop, `j = 1, …, len(rhs)`. -/
def scanReduce (cs : List Compound) (i : Int) (rhs : Str) : ScanRes :=
  scanReduceGo cs i rhs rhs.length rhs.length []

/-- Outcome of the scan phase of one loop iteration of `evaluate_lr_input`,
before the serialization code runs: `none` is an uncaught `IndexError`;
otherwise `(READ, ACTION, new compounds, evaluation_finished)`. -/
def lrScan (lr : LR) (cs : List Compound) :
    Option (Option Str × Option LRAct × List Compound × Bool) :=
  match findPend cs with
  | none => some (none, none, cs, false)
  | some (i, comp) =>
    match comp.symbol with
    | none => some (none, some .rejSymbolNone, cs, true)
    | some t =>
      match pyIdx cs ((i : Int) - 1) with
      | none => none
      | some pc =>
        match pc.state with
        | none => some (some t, some .rejPrevState, cs, true)
        | some ps =>
          match lookupStr lr.table ps with
          | none => some (some t, some .rejStateRow, cs, true)
          | some acts =>
            match lookupStr acts t with
            | none => some (some t, some (.rejNoAction (removeStateTag ps) t), cs, true)
            | some a =>
              if lowerStr a = acceptLit then
                some (some t, some .accepted, cs, true)
              else if startsWithTag stateTag a then
                some (some t, some (.shiftTo a), cs.set i ⟨some a, comp.symbol⟩, false)
              else if hasArrow a then
                match scanReduce cs (i : Int) (a.drop 3) with
                | .crash => none
                | .rejPrevSym => some (some t, some .rejPrevSymbol, cs, true)
                | .invalid => some (some t, some (.reverse a), cs, false)
                | .valid toDel =>
                  match a with
                  | [] => none
                  | lhs :: _ =>
                    let cs1 := cs.filter fun c => decide (c ∉ toDel)
                    some (some t, some (.reverse a),
                      insertAt cs1 (cs1.length - 1) ⟨none, some [lhs]⟩, false)
              else
                some (some t, some (.rejIncorrect t (removeStateTag ps)), cs, true)

/-- The serialization loop over the pre-step `compounds`: stripped state
names of settled compounds, the symbols seen before any missing one, and
whether a compound without a `"symbol"` key was hit. -/
def serCompounds : List Compound → List Str × List Str × Bool
  | [] => ([], [], false)
  | c :: rest =>
    let stPart : List Str := match c.state with
      | some st => [removeStateTag st]
      | none => []
    match c.symbol with
    | none => (stPart, [], true)
    | some sym =>
      let r := serCompounds rest
      (stPart ++ r.1, sym :: r.2.1, r.2.2)

inductive LRStepRes where
  | cont (r : LRRecord) (cs : List Compound)
  | done (r : LRRecord)
  | crash
deriving DecidableEq

/-- Assemble the trace row from the scan outcome: `STATE STACK` is the
space-joined stripped states, `INPUT` the joined symbols, and a missing
symbol overwrites the action and finishes the run. -/
def finishStep (n : Nat) (cs : List Compound) :
    Option (Option Str × Option LRAct × List Compound × Bool) → LRStepRes
  | none => .crash
  | some (rd, act, cs', fin) =>
    let s := serCompounds cs
    let act2 := if s.2.2 then some .rejSymbolsMissing else act
    let r : LRRecord := ⟨n, rd, act2, List.intercalate [' '] s.1, s.2.1.flatten⟩
    if fin || s.2.2 then .done r else .cont r cs'

/-- One iteration of the `while` loop of `evaluate_lr_input`. -/
def lrStep (lr : LR) (n : Nat) (cs : List Compound) : LRStepRes :=
  finishStep n cs (lrScan lr cs)

/-- The `while` loop of `evaluate_lr_input`, with fuel. -/
def lrRun (lr : LR) (cs : List Compound) (n : Nat) :
    Nat → List LRRecord × Status
  | 0 => ([], .fuel)
  | f + 1 =>
    match lrStep lr n cs with
    | .done r => ([r], .finished)
    | .crash => ([], .crashed)
    | .cont r cs' => (r :: (lrRun lr cs' (n + 1) f).1, (lrRun lr cs' (n + 1) f).2)

/-- Initial compounds: one settled compound `(start state, "")` followed by
one pending compound per input symbol.  The LR driver applies no identifier
normalization and appends no end marker. -/
def lrInit (lr : LR) (input : Str) : List Compound :=
  ⟨some lr.start_state, some []⟩ :: input.map fun c => ⟨none, some [c]⟩

/-- The function `evaluate_lr_input`, fuelled. -/
def evaluate_lr_input (lr : LR) (input : Str) (fuel : Nat) :
    List LRRecord × Status :=
  lrRun lr (lrInit lr input) 1 fuel

/-! ### Concrete tables used to witness the theorems -/

/-- LL table with start rule `S -> #` and the single entry `S/# -> #`
(the spec's LL scenario). -/
def exLL : LL := ⟨['S'], ['#'], [(['S'], [(['#'], ['#'])])]⟩

/-- LR table accepting `a$`: shift `a`, reduce `E->a`, shift `E`, accept
(the spec's LR scenario). -/
def exLR : LR := ⟨"State_0".toList,
  [("State_0".toList, [(['a'], "State_1".toList), (['E'], "State_2".toList)]),
   ("State_1".toList, [(['$'], "E->a".toList)]),
   ("State_2".toList, [(['$'], "accept".toList)])]⟩

/-- LR table whose reduction `X->c` fires against a stack holding `a`:
the right-hand side never matches. -/
def lrMis : LR := ⟨"State_0".toList,
  [("State_0".toList, [(['a'], "State_1".toList)]),
   ("State_1".toList, [(['b'], "X->c".toList)])]⟩

/-- LR table whose reduction `T->i` fires while two further pending
compounds remain behind the lookahead. -/
def lrMid : LR := ⟨"State_0".toList,
  [("State_0".toList, [(['i'], "State_5".toList)]),
   ("State_5".toList, [(['+'], "T->i".toList)])]⟩

/-- The compound sequence of `lrMid` on input `i+x` after the first shift. -/
def csMid : List Compound :=
  [⟨some "State_0".toList, some []⟩, ⟨some "State_5".toList, some ['i']⟩,
   ⟨none, some ['+']⟩, ⟨none, some ['x']⟩]

/-- LR table that shifts its whole input, leaving no pending compound. -/
def lrShiftAll : LR :=
  ⟨"State_0".toList, [("State_0".toList, [(['a'], "State_1".toList)])]⟩

/-- The compound sequence of `lrMis` on input `ab` after the first shift. -/
def csMis : List Compound :=
  [⟨some "State_0".toList, some []⟩, ⟨some "State_1".toList, some ['a']⟩,
   ⟨none, some ['b']⟩]

/-- The compound sequence of `lrShiftAll` on input `a` after its shift:
every compound is settled. -/
def csShift : List Compound :=
  [⟨some "State_0".toList, some []⟩, ⟨some "State_1".toList, some ['a']⟩]

/-- LR table with an unclassifiable action string `"foo"`. -/
def lrBad : LR := ⟨"State_0".toList, [("State_0".toList, [(['a'], "foo".toList)])]⟩

/-- Assertion that `r` displays the stack and remaining-input columns of state `s`. -/
def ShowsState (r : LLRecord) (s : LLState) : Prop :=
  r.stackS = s.stack.reverse.flatten ∧ r.inputS = s.queue.flatten

/-! ### Helper lemmas -/

lemma removeFirst_cons_self (q : List Str) (t : Str) :
    removeFirst (t :: q) t = q := by
  simp [removeFirst]

lemma flatten_map_singleton (l : List Char) :
    (l.map fun c => [c]).flatten = l := by
  induction l with
  | nil => rfl
  | cons c rest ih => simp [ih]

lemma getLast?_cons_some {α : Type} (a : α) {l : List α} {r : α}
    (h : l.getLast? = some r) : (a :: l).getLast? = some r := by
  cases l with
  | nil => simp at h
  | cons b t => rw [List.getLast?_cons_cons]; exact h

/-- Every record a step emits is serialized from the pre-step state. -/
lemma llStep_cont_rec {ll : LL} {s : LLState} {r : LLRecord} {s' : LLState}
    (h : llStep ll s = .cont r s') : ∃ a, r = mkLLRec s a := by
  unfold llStep at h
  split at h
  · exact ⟨_, (LLStepRes.cont.injEq _ _ _ _).mp h |>.1.symm⟩
  · split at h
    · exact absurd h (by simp)
    · split at h
      · exact absurd h (by simp)
      · split at h
        · exact absurd h (by simp)
        · split at h
          · exact ⟨_, (LLStepRes.cont.injEq _ _ _ _).mp h |>.1.symm⟩
          · split at h
            · exact absurd h (by simp)
            · split at h
              · exact absurd h (by simp)
              · exact ⟨_, (LLStepRes.cont.injEq _ _ _ _).mp h |>.1.symm⟩

/-- Every record a finishing step emits is serialized from the pre-step
state. -/
lemma llStep_done_rec {ll : LL} {s : LLState} {r : LLRecord}
    (h : llStep ll s = .done r) : ∃ a, r = mkLLRec s a := by
  unfold llStep at h
  split at h
  · exact absurd h (by simp)
  · split at h
    · exact absurd h (by simp)
    · split at h
      · exact absurd h (by simp)
      · split at h
        · exact ⟨_, (LLStepRes.done.injEq _ _).mp h |>.symm⟩
        · split at h
          · exact absurd h (by simp)
          · split at h
            · exact ⟨_, (LLStepRes.done.injEq _ _).mp h |>.symm⟩
            · split at h
              · exact ⟨_, (LLStepRes.done.injEq _ _).mp h |>.symm⟩
              · exact absurd h (by simp)

/-- A finishing step records one of the three terminal actions. -/
lemma llStep_done_action {ll : LL} {s : LLState} {r : LLRecord}
    (h : llStep ll s = .done r) :
    r.action = .accepted ∨ (∃ nt la, r.action = .rejectNoEntry nt la) ∨
      ∃ x, r.action = .rejectNoRow x := by
  unfold llStep at h
  split at h
  · exact absurd h (by simp)
  · split at h
    · exact absurd h (by simp)
    · split at h
      · exact absurd h (by simp)
      · split at h
        · cases h; exact .inl rfl
        · split at h
          · exact absurd h (by simp)
          · split at h
            · cases h; exact .inr (.inr ⟨_, rfl⟩)
            · split at h
              · cases h; exact .inr (.inl ⟨_, _, rfl⟩)
              · exact absurd h (by simp)

/-- A step that set `evaluation_finished` with `ACCEPTED` saw the end
marker both on top of the stack and at the head of the queue. -/
lemma llStep_done_accepted {ll : LL} {s : LLState} {r : LLRecord}
    (h : llStep ll s = .done r) (ha : r.action = .accepted) :
    s.stack.head? = some dollar ∧ s.queue.head? = some dollar := by
  unfold llStep at h
  split at h
  · exact absurd h (by simp)
  · split at h
    · exact absurd h (by simp)
    · rename_i x rest hstack
      split at h
      · exact absurd h (by simp)
      · rename_i t q hqueue
        split at h
        · rename_i hdol
          rw [hstack, hqueue]
          simp [hdol.1, hdol.2]
        · split at h
          · exact absurd h (by simp)
          · split at h
            · cases h; cases ha
            · split at h
              · cases h; cases ha
              · exact absurd h (by simp)

/-- A continuing step never records `ACCEPTED`. -/
lemma llStep_cont_not_accepted {ll : LL} {s : LLState} {r : LLRecord}
    {s' : LLState} (h : llStep ll s = .cont r s') : r.action ≠ .accepted := by
  unfold llStep at h
  split at h
  · cases h; simp [mkLLRec]
  · split at h
    · exact absurd h (by simp)
    · split at h
      · exact absurd h (by simp)
      · split at h
        · exact absurd h (by simp)
        · split at h
          · cases h; simp [mkLLRec]
          · split at h
            · exact absurd h (by simp)
            · split at h
              · exact absurd h (by simp)
              · cases h; simp [mkLLRec]

/-- How a continuing step changes the queue: either not at all, or — for a
terminal match — by dropping exactly the head. -/
lemma llStep_cont_queue {ll : LL} {s : LLState} {r : LLRecord} {s' : LLState}
    (h : llStep ll s = .cont r s') :
    s'.queue = s.queue ∨
      ∃ t q, s.queue = t :: q ∧ s'.queue = q ∧ r.action = .matchRemove t := by
  unfold llStep at h
  split at h
  · cases h; exact .inl rfl
  · split at h
    · exact absurd h (by simp)
    · split at h
      · exact absurd h (by simp)
      · rename_i t q hqueue
        split at h
        · exact absurd h (by simp)
        · split at h
          · cases h
            exact .inr ⟨t, q, hqueue, removeFirst_cons_self q t, by simp [mkLLRec]⟩
          · split at h
            · exact absurd h (by simp)
            · split at h
              · exact absurd h (by simp)
              · cases h; exact .inl hqueue.symm

/-- A run that finished did so on a record carrying a terminal action, and
that record is the last of the trace. -/
lemma llRun_finished_last (ll : LL) :
    ∀ (f : Nat) (s : LLState) (tr : List LLRecord),
      llRun ll s f = (tr, .finished) →
      ∃ r, tr.getLast? = some r ∧
        (r.action = .accepted ∨ (∃ nt la, r.action = .rejectNoEntry nt la) ∨
          ∃ x, r.action = .rejectNoRow x) := by
  intro f
  induction f with
  | zero => intro s tr h; simp [llRun] at h
  | succ f ih =>
    intro s tr h
    cases hs : llStep ll s with
    | done r =>
      simp only [llRun, hs] at h
      obtain ⟨h1, -⟩ := Prod.mk.injEq .. |>.mp h
      exact ⟨r, by rw [← h1]; rfl, llStep_done_action hs⟩
    | crash => simp [llRun, hs] at h
    | cont r s' =>
      simp only [llRun, hs] at h
      obtain ⟨h1, h2⟩ := Prod.mk.injEq .. |>.mp h
      obtain ⟨r', hr1, hr2⟩ := ih s' (llRun ll s' f).1 (Prod.ext rfl h2)
      exact ⟨r', by rw [← h1]; exact getLast?_cons_some r hr1, hr2⟩

/-- Queue elements of a continuing step come from the old queue. -/
lemma llStep_cont_queue_sub {ll : LL} {s : LLState} {r : LLRecord}
    {s' : LLState} (h : llStep ll s = .cont r s') : s'.queue ⊆ s.queue := by
  rcases llStep_cont_queue h with h1 | ⟨t, q, h1, h2, -⟩
  · rw [h1]; exact List.Subset.refl _
  · rw [h1, h2]; exact List.subset_cons_self t q

/-- No record of a run started from a `"$"`-free queue is `ACCEPTED`. -/
lemma llRun_no_accept (ll : LL) :
    ∀ (f : Nat) (s : LLState), (∀ x ∈ s.queue, x ≠ dollar) →
      ∀ (i : Nat) (r : LLRecord), ((llRun ll s f).1)[i]? = some r →
        r.action ≠ .accepted := by
  intro f
  induction f with
  | zero => intro s hq i r h; simp [llRun] at h
  | succ f ih =>
    intro s hq i r h
    cases hs : llStep ll s with
    | done r0 =>
      simp only [llRun, hs] at h
      cases i with
      | zero =>
        simp at h
        subst h
        intro ha
        obtain ⟨-, hhead⟩ := llStep_done_accepted hs ha
        refine hq dollar ?_ rfl
        cases hsq : s.queue with
        | nil => rw [hsq] at hhead; simp at hhead
        | cons y ys =>
          rw [hsq] at hhead
          simp at hhead
          rw [hhead]
          exact List.mem_cons_self ..
      | succ i => simp at h
    | crash => simp [llRun, hs] at h
    | cont r0 s' =>
      simp only [llRun, hs] at h
      cases i with
      | zero =>
        simp at h
        subst h
        exact llStep_cont_not_accepted hs
      | succ i =>
        simp only [List.getElem?_cons_succ] at h
        exact ih s' (fun x hx => hq x (llStep_cont_queue_sub hs hx)) i r h

/-! ### Claim C3 -/

/-- Claim C3 as stated is false: for the input `"a"` the first trace row
shows the remaining input `"a"`, not `"a$"` — the source never appends an
end marker to the input queue. -/
theorem ll_c3_counterexample :
    ((evaluate_ll_input exLL ['a'] 3).1.head?.map LLRecord.inputS) = some ['a'] ∧
      ((evaluate_ll_input exLL ['a'] 3).1.head?.map LLRecord.inputS) ≠
        some ['a', '$'] := by
  constructor
  · decide
  · decide

/-- Claim C3, amended: at the start of every LL run the input queue holds
exactly the normalized input symbols, with no end marker appended, and the
stack holds only the end marker — as displayed by the first trace row. -/
theorem ll_c3_init (ll : LL) (input : Str) (fuel : Nat) (h : 0 < fuel) :
    ((evaluate_ll_input ll input fuel).1)[0]? =
      some ⟨1, ['$'], normalizeId input,
        .startExp ll.start_symbol ll.start_rule⟩ := by
  obtain ⟨f, rfl⟩ : ∃ f, fuel = f + 1 := ⟨fuel - 1, by omega⟩
  simp [evaluate_ll_input, llRun, llStep, llInit, mkLLRec, dollar,
    flatten_map_singleton]

theorem ll_c3_init_witness :
    ((evaluate_ll_input exLL ['a'] 3).1)[0]? =
      some ⟨1, ['$'], ['a'], .startExp ['S'] ['#']⟩ :=
  ll_c3_init exLL ['a'] 3 (by decide)

/-! ### Claim C4 -/

/-- Claim C4 as stated is false: on the empty input the LL run never
finishes with a trace — the second iteration reads `queue[0]` of an empty
queue and the simulation dies with an uncaught `IndexError`. -/
theorem ll_c4_counterexample :
    ¬ ∃ fuel : Nat, (evaluate_ll_input exLL [] fuel).2 = .finished := by
  rintro ⟨fuel, h⟩
  match fuel with
  | 0 => exact absurd h (by decide)
  | 1 => exact absurd h (by decide)
  | f + 2 =>
    have h1 : llStep exLL (llInit []) =
        .cont ⟨1, ['$'], [], .startExp ['S'] ['#']⟩ ⟨[['#'], ['$']], [], 2⟩ := by
      decide
    have h2 : llStep exLL ⟨[['#'], ['$']], [], 2⟩ = .crash := by decide
    have : (evaluate_ll_input exLL [] (f + 2)).2 = .crashed := by
      show (llRun exLL (llInit []) (f + 2)).2 = .crashed
      rw [llRun, h1]
      simp only [llRun, h2]
    rw [this] at h
    exact absurd h (by decide)

/-- Claim C4, amended: termination is not guaranteed (a missing end marker
crashes the queue access, and a looping table runs forever), but whenever
the LL run does finish, its trace ends in a record whose action is
`ACCEPTED` or a REJECT with one of the two documented causes. -/
theorem ll_c4_final_action (ll : LL) (input : Str) (fuel : Nat)
    (tr : List LLRecord) (h : evaluate_ll_input ll input fuel = (tr, .finished)) :
    ∃ r, tr.getLast? = some r ∧
      (r.action = .accepted ∨ (∃ nt la, r.action = .rejectNoEntry nt la) ∨
        ∃ x, r.action = .rejectNoRow x) :=
  llRun_finished_last ll fuel (llInit input) tr h

theorem ll_c4_final_action_witness :
    ∃ r, [(⟨1, ['$'], ['#', '$'], .startExp ['S'] ['#']⟩ : LLRecord),
          ⟨2, ['$', '#'], ['#', '$'], .matchRemove ['#']⟩,
          ⟨3, ['$'], ['$'], .accepted⟩].getLast? = some r ∧
      (r.action = .accepted ∨ (∃ nt la, r.action = .rejectNoEntry nt la) ∨
        ∃ x, r.action = .rejectNoRow x) :=
  ll_c4_final_action exLL ("id$").toList 3 _ (by decide)

/-! ### Claim C6 -/

/-- Claim C6: when, after step 1, the popped stack symbol equals the head
input symbol and they are not both the end marker, the step records a match
action and removes exactly the head from the queue; and no other continuing
step changes the remaining input (finishing steps return no successor state
and mutate nothing). -/
theorem ll_c6_match :
    (∀ (ll : LL) (s : LLState) (x t : Str) (rest q : List Str),
      s.step ≠ 1 → s.stack = x :: rest → s.queue = t :: q → x = t →
      ¬(x = dollar ∧ t = dollar) →
      llStep ll s = .cont (mkLLRec s (.matchRemove t)) ⟨rest, q, s.step + 1⟩) ∧
    (∀ (ll : LL) (s : LLState) (r : LLRecord) (s' : LLState),
      llStep ll s = .cont r s' → (∀ t, r.action ≠ .matchRemove t) →
      s'.queue = s.queue) := by
  constructor
  · intro ll s x t rest q h1 h2 h3 h4 h5
    subst h4
    unfold llStep
    rw [if_neg h1, h2, h3]
    have h6 : x ≠ dollar := fun he => h5 ⟨he, he⟩
    simp [h6, removeFirst_cons_self]
  · intro ll s r s' h hna
    rcases llStep_cont_queue h with h1 | ⟨t, -, -, -, h3⟩
    · exact h1
    · exact absurd h3 (hna t)

theorem ll_c6_match_witness :
    (llStep exLL ⟨[['#'], ['$']], [['#'], ['$']], 2⟩ =
      .cont ⟨2, ['$', '#'], ['#', '$'], .matchRemove ['#']⟩
        ⟨[['$']], [['$']], 3⟩) ∧
    ((⟨[['#'], ['$']], [['#'], ['$']], 2⟩ : LLState).queue =
      (llInit ("id$").toList).queue) := by
  constructor
  · exact ll_c6_match.1 exLL ⟨[['#'], ['$']], [['#'], ['$']], 2⟩ ['#'] ['#']
      [['$']] [['$']] (by decide) rfl rfl rfl (by decide)
  · exact ll_c6_match.2 exLL (llInit ("id$").toList)
      ⟨1, ['$'], ['#', '$'], .startExp ['S'] ['#']⟩
      ⟨[['#'], ['$']], [['#'], ['$']], 2⟩ (by decide)
      (fun t h => LLAction.noConfusion h)

/-! ### Claim C9 -/

/-- Claim C9: both fuelled simulators are functions of their arguments
alone — re-running the same `(table, input)` pair yields the identical
trace and status; the embedding consults no state outside its arguments,
matching the source, whose loops read only the table, the input and
run-local variables. -/
theorem c9_deterministic (ll : LL) (lr : LR) (input : Str) (fuel : Nat) :
    evaluate_ll_input ll input fuel = evaluate_ll_input ll input fuel ∧
      evaluate_lr_input lr input fuel = evaluate_lr_input lr input fuel :=
  ⟨rfl, rfl⟩

/-! ### Claim C10 -/

/-- Claim C10: `ACCEPTED` is recorded only when the popped stack symbol and
the head of the remaining input both equal `"$"`; consequently a run on an
input containing no `'$'` after identifier normalization never produces an
`ACCEPTED` record (in particular its trace never ends in one). -/
theorem ll_c10_accept :
    (∀ (ll : LL) (s : LLState) (r : LLRecord),
      llStep ll s = .done r → r.action = .accepted →
      s.stack.head? = some dollar ∧ s.queue.head? = some dollar) ∧
    (∀ (ll : LL) (input : Str) (fuel : Nat), '$' ∉ normalizeId input →
      ∀ (i : Nat) (r : LLRecord),
        ((evaluate_ll_input ll input fuel).1)[i]? = some r →
        r.action ≠ .accepted) := by
  constructor
  · exact fun ll s r h ha => llStep_done_accepted h ha
  · intro ll input fuel hd i r h
    refine llRun_no_accept ll fuel (llInit input) ?_ i r h
    intro x hx
    simp only [llInit, List.mem_map] at hx
    obtain ⟨c, hc, rfl⟩ := hx
    intro hxe
    simp only [dollar, List.cons.injEq] at hxe
    exact hd (hxe.1 ▸ hc)

theorem ll_c10_accept_witness :
    ((⟨[['$']], [['$']], 3⟩ : LLState).stack.head? = some dollar ∧
      (⟨[['$']], [['$']], 3⟩ : LLState).queue.head? = some dollar) ∧
    (⟨1, ['$'], ['a'], .startExp ['S'] ['#']⟩ : LLRecord).action ≠
      .accepted := by
  constructor
  · exact ll_c10_accept.1 exLL ⟨[['$']], [['$']], 3⟩
      ⟨3, ['$'], ['$'], .accepted⟩ (by decide) rfl
  · exact ll_c10_accept.2 exLL ['a'] 3 (by decide) 0
      ⟨1, ['$'], ['a'], .startExp ['S'] ['#']⟩ (by decide)

/-! ### Claim C7 -/

/-- The first record of any (partial) run displays the run's current
state. -/
lemma llRun_first_shows (ll : LL) :
    ∀ (f : Nat) (s : LLState) (r : LLRecord),
      ((llRun ll s f).1)[0]? = some r → ShowsState r s := by
  intro f s r h
  cases f with
  | zero => simp [llRun] at h
  | succ f =>
    cases hs : llStep ll s with
    | done r0 =>
      simp only [llRun, hs, List.getElem?_cons_zero, Option.some.injEq] at h
      obtain ⟨a, rfl⟩ := llStep_done_rec hs
      exact h ▸ ⟨rfl, rfl⟩
    | crash => simp [llRun, hs] at h
    | cont r0 s' =>
      simp only [llRun, hs, List.getElem?_cons_zero, Option.some.injEq] at h
      obtain ⟨a, rfl⟩ := llStep_cont_rec hs
      exact h ▸ ⟨rfl, rfl⟩

/-- Claim C7: any two adjacent trace rows are linked by one loop
iteration — the earlier row displays the state the step started from, its
action is the one that step recorded, and the later row displays exactly
the state that step produced. -/
theorem ll_c7_trace (ll : LL) :
    ∀ (f : Nat) (s : LLState) (i : Nat) (r r' : LLRecord),
      ((llRun ll s f).1)[i]? = some r →
      ((llRun ll s f).1)[i + 1]? = some r' →
      ∃ u u', ShowsState r u ∧ llStep ll u = .cont r u' ∧ ShowsState r' u' := by
  intro f
  induction f with
  | zero => intro s i r r' h h'; simp [llRun] at h
  | succ f ih =>
    intro s i r r' h h'
    cases hs : llStep ll s with
    | done r0 =>
      simp only [llRun, hs] at h'
      rcases i with - | i <;> simp at h'
    | crash => simp [llRun, hs] at h
    | cont r0 s' =>
      simp only [llRun, hs] at h h'
      cases i with
      | zero =>
        simp only [List.getElem?_cons_zero, Option.some.injEq] at h
        simp only [List.getElem?_cons_succ] at h'
        subst h
        obtain ⟨a, rfl⟩ := llStep_cont_rec hs
        exact ⟨s, s', ⟨rfl, rfl⟩, hs, llRun_first_shows ll f s' r' h'⟩
      | succ i =>
        simp only [List.getElem?_cons_succ] at h h'
        exact ih s' i r r' h h'

theorem ll_c7_trace_witness :
    ∃ u u', ShowsState ⟨1, ['$'], ['#', '$'], .startExp ['S'] ['#']⟩ u ∧
      llStep exLL u = .cont ⟨1, ['$'], ['#', '$'], .startExp ['S'] ['#']⟩ u' ∧
      ShowsState ⟨2, ['$', '#'], ['#', '$'], .matchRemove ['#']⟩ u' :=
  ll_c7_trace exLL 3 (llInit ("id$").toList) 0
    ⟨1, ['$'], ['#', '$'], .startExp ['S'] ['#']⟩
    ⟨2, ['$', '#'], ['#', '$'], .matchRemove ['#']⟩ (by decide) (by decide)

/-- If every step from `cs` loops back to `cs`, the run only ever runs out
of fuel. -/
lemma lrRun_const_fuel {lr : LR} {cs : List Compound}
    (hstep : ∀ k, ∃ r, lrStep lr k cs = .cont r cs) :
    ∀ (fuel k : Nat), (lrRun lr cs k fuel).2 = .fuel := by
  intro fuel
  induction fuel with
  | zero => intro k; rfl
  | succ fuel ih =>
    intro k
    obtain ⟨r, hr⟩ := hstep k
    simp only [lrRun, hr]
    exact ih (k + 1)

/-- If every compound carries a symbol, the serialization loop flags no
missing symbol. -/
lemma serCompounds_no_miss :
    ∀ {cs : List Compound}, (∀ c ∈ cs, c.symbol.isSome) →
      (serCompounds cs).2.2 = false := by
  intro cs
  induction cs with
  | nil => intro _; rfl
  | cons c rest ih =>
    intro h
    have hc := h c (List.mem_cons_self ..)
    unfold serCompounds
    cases hsym : c.symbol with
    | none => rw [hsym] at hc; simp at hc
    | some sym => simpa using ih fun d hd => h d (List.mem_cons_of_mem c hd)

/-! ### Claim C1 -/

/-- Claim C1 is right and the code is wrong: on `lrMis` with input `ab` a
Reduce action (`X->c`) fires whose right-hand side does not match the
preceding settled compound (which carries `a`).  Instead of rejecting, the
source only clears `action_is_valid`, breaks out, and re-enters the next
iteration with the compound sequence unchanged: the run burns any amount of
fuel without ever terminating, and no REJECT record is produced. -/
theorem lr_c1_mismatch_loops (fuel : Nat) :
    (evaluate_lr_input lrMis ("ab").toList fuel).2 = .fuel := by
  have hstep : ∀ k, lrStep lrMis k csMis =
      .cont ⟨k, some ['b'], some (.reverse ("X->c").toList), "0 1".toList,
        "ab".toList⟩ csMis :=
    fun k => rfl
  match fuel with
  | 0 => rfl
  | f + 1 =>
    have h1 : lrStep lrMis 1 (lrInit lrMis ("ab").toList) =
        .cont ⟨1, some ['a'], some (.shiftTo "State_1".toList), ['0'],
          "ab".toList⟩ csMis := by decide
    show (lrRun lrMis (lrInit lrMis ("ab").toList) 1 (f + 1)).2 = .fuel
    simp only [lrRun, h1]
    exact lrRun_const_fuel (fun k => ⟨_, hstep k⟩) f 2

/-! ### Claim C8 -/

/-- Claim C8 as stated is false: on `lrShiftAll` with input `a` the second
step settles the last pending compound, after which no pending compound
exists; the run then never terminates (so no REJECT is recorded), appending
records that carry no action at all. -/
theorem lr_c8_counterexample :
    (¬ ∃ fuel : Nat, (evaluate_lr_input lrShiftAll ['a'] fuel).2 = .finished) ∧
      ((evaluate_lr_input lrShiftAll ['a'] 3).1)[2]?.map LRRecord.action =
        some none := by
  constructor
  · rintro ⟨fuel, h⟩
    match fuel with
    | 0 => exact absurd h (by decide)
    | f + 1 =>
      have h1 : lrStep lrShiftAll 1 (lrInit lrShiftAll ['a']) =
          .cont ⟨1, some ['a'], some (.shiftTo "State_1".toList), ['0'],
            ['a']⟩ csShift := by decide
      have h2 : ∀ k, lrStep lrShiftAll k csShift =
          .cont ⟨k, none, none, "0 1".toList, ['a']⟩ csShift :=
        fun k => rfl
      have hf : (evaluate_lr_input lrShiftAll ['a'] (f + 1)).2 = .fuel := by
        show (lrRun lrShiftAll (lrInit lrShiftAll ['a']) 1 (f + 1)).2 = .fuel
        simp only [lrRun, h1]
        exact lrRun_const_fuel (fun k => ⟨_, h2 k⟩) f 2
      rw [hf] at h
      exact absurd h (by decide)
  · decide

/-- Claim C8, amended: when no pending compound exists (and the run has not
accepted), the step appends a record with no action and no read symbol and
leaves the compound sequence unchanged, so the run never terminates; no
REJECT is produced. -/
theorem lr_c8_no_pending (lr : LR) (cs : List Compound) (n : Nat)
    (hnp : findPend cs = none) (hsym : ∀ c ∈ cs, c.symbol.isSome) :
    lrStep lr n cs =
      .cont ⟨n, none, none, List.intercalate [' '] (serCompounds cs).1,
        (serCompounds cs).2.1.flatten⟩ cs ∧
      ∀ (fuel k : Nat), (lrRun lr cs k fuel).2 = .fuel := by
  have hmiss : (serCompounds cs).2.2 = false := serCompounds_no_miss hsym
  have hstep : ∀ k, lrStep lr k cs =
      .cont ⟨k, none, none, List.intercalate [' '] (serCompounds cs).1,
        (serCompounds cs).2.1.flatten⟩ cs := by
    intro k
    unfold lrStep lrScan
    rw [hnp]
    unfold finishStep
    simp [hmiss]
  exact ⟨hstep n, fun fuel k => lrRun_const_fuel (fun k => ⟨_, hstep k⟩) fuel k⟩

theorem lr_c8_no_pending_witness :
    lrStep lrShiftAll 2 csShift =
      .cont ⟨2, none, none, List.intercalate [' '] (serCompounds csShift).1,
        (serCompounds csShift).2.1.flatten⟩ csShift :=
  (lr_c8_no_pending lrShiftAll csShift 2 (by decide) (by decide)).1


/-- A successful Python indexing returns an element of the list. -/
lemma pyIdx_mem {α : Type} {l : List α} {i : Int} {x : α}
    (h : pyIdx l i = some x) : x ∈ l := by
  unfold pyIdx at h
  split at h
  · split at h
    · exact List.getElem?_mem h
    · exact absurd h (by simp)
  · split at h
    · exact List.getElem?_mem h
    · exact absurd h (by simp)

/-- A string containing `"->"` is non-empty. -/
lemma hasArrow_ne_nil {a : Str} (h : hasArrow a = true) : a ≠ [] := by
  intro he
  rw [he] at h
  exact absurd h (by decide)

/-- The reduction-match loop reports a missing symbol only if some scanned
compound indeed has none. -/
lemma scanReduceGo_rejPrevSym {cs : List Compound} {i : Int} {rhs : Str}
    {k : Nat} :
    ∀ {m : Nat} {acc : List Compound},
      scanReduceGo cs i rhs k m acc = .rejPrevSym →
      ∃ c ∈ cs, c.symbol = none := by
  intro m
  induction m with
  | zero => intro acc h; exact absurd h (by simp [scanReduceGo])
  | succ m ih =>
    intro acc h
    unfold scanReduceGo at h
    split at h
    · exact absurd h (by simp)
    · rename_i c hpy
      split at h
      · exact ⟨c, pyIdx_mem hpy, by assumption⟩
      · split at h
        · exact ih h
        · exact absurd h (by simp)

/-! ### Claim C5 -/

/-- Claim C5: whenever an action string `a` is looked up for the first
pending compound, the step classifies it by the fixed markers, in the
source's order of inspection: the case-insensitive literal `accept`
finishes the run with `ACCEPTED`; otherwise the `State_` name marker
settles the pending compound to that state and records a shift; otherwise
an `->` occurrence enters the reduction path, recording the `Reverse`
action (unless the match loop's index arithmetic dies); and any other
string finishes the run with the incorrect-action REJECT. -/
theorem lr_c5_classify (lr : LR) (n : Nat) (cs : List Compound) (i : Nat)
    (comp : Compound) (t : Str) (pc : Compound) (ps : Str)
    (acts : List (Str × Str)) (a : Str)
    (hfp : findPend cs = some (i, comp)) (hsym : comp.symbol = some t)
    (hprev : pyIdx cs ((i : Int) - 1) = some pc) (hps : pc.state = some ps)
    (hrow : lookupStr lr.table ps = some acts)
    (hact : lookupStr acts t = some a)
    (hWF : ∀ c ∈ cs, c.symbol.isSome) :
    (lowerStr a = acceptLit →
      lrStep lr n cs = .done ⟨n, some t, some .accepted,
        List.intercalate [' '] (serCompounds cs).1,
        (serCompounds cs).2.1.flatten⟩) ∧
    (lowerStr a ≠ acceptLit → startsWithTag stateTag a = true →
      lrStep lr n cs = .cont ⟨n, some t, some (.shiftTo a),
        List.intercalate [' '] (serCompounds cs).1,
        (serCompounds cs).2.1.flatten⟩ (cs.set i ⟨some a, some t⟩)) ∧
    (lowerStr a ≠ acceptLit → startsWithTag stateTag a = false →
      hasArrow a = true →
      (∃ cs', lrStep lr n cs = .cont ⟨n, some t, some (.reverse a),
        List.intercalate [' '] (serCompounds cs).1,
        (serCompounds cs).2.1.flatten⟩ cs') ∨ lrStep lr n cs = .crash) ∧
    (lowerStr a ≠ acceptLit → startsWithTag stateTag a = false →
      hasArrow a = false →
      lrStep lr n cs = .done ⟨n, some t,
        some (.rejIncorrect t (removeStateTag ps)),
        List.intercalate [' '] (serCompounds cs).1,
        (serCompounds cs).2.1.flatten⟩) := by
  have hmiss : (serCompounds cs).2.2 = false := serCompounds_no_miss hWF
  refine ⟨?_, ?_, ?_, ?_⟩
  · intro hacc
    unfold lrStep lrScan
    simp only [hfp, hsym, hprev, hps, hrow, hact]
    rw [if_pos hacc]
    unfold finishStep
    simp [hmiss]
  · intro hnacc htag
    unfold lrStep lrScan
    simp only [hfp, hsym, hprev, hps, hrow, hact]
    rw [if_neg hnacc, if_pos htag]
    unfold finishStep
    simp [hmiss]
  · intro hnacc htag harr
    cases hscan : scanReduce cs (i : Int) (a.drop 3) with
    | crash =>
      refine .inr ?_
      unfold lrStep lrScan
      simp only [hfp, hsym, hprev, hps, hrow, hact]
      rw [if_neg hnacc, if_neg (by simp [htag]), if_pos harr, hscan]
      rfl
    | rejPrevSym =>
      obtain ⟨c, hc, hcnone⟩ := scanReduceGo_rejPrevSym hscan
      have := hWF c hc
      rw [hcnone] at this
      exact absurd this (by simp)
    | invalid =>
      refine .inl ⟨cs, ?_⟩
      unfold lrStep lrScan
      simp only [hfp, hsym, hprev, hps, hrow, hact]
      rw [if_neg hnacc, if_neg (by simp [htag]), if_pos harr, hscan]
      unfold finishStep
      simp [hmiss]
    | valid toDel =>
      obtain ⟨lhs, as, rfl⟩ : ∃ lhs as, a = lhs :: as := by
        cases a with
        | nil => exact absurd rfl (hasArrow_ne_nil harr)
        | cons lhs as => exact ⟨lhs, as, rfl⟩
      refine .inl ⟨insertAt (cs.filter fun c => decide (c ∉ toDel))
        ((cs.filter fun c => decide (c ∉ toDel)).length - 1)
        ⟨none, some [lhs]⟩, ?_⟩
      unfold lrStep lrScan
      simp only [hfp, hsym, hprev, hps, hrow, hact]
      rw [if_neg hnacc, if_neg (by simp [htag]), if_pos harr, hscan]
      unfold finishStep
      simp [hmiss]
  · intro hnacc htag harr
    unfold lrStep lrScan
    simp only [hfp, hsym, hprev, hps, hrow, hact]
    rw [if_neg hnacc, if_neg (by simp [htag]), if_neg (by simp [harr])]
    unfold finishStep
    simp [hmiss]

theorem lr_c5_classify_witness :
    lrStep lrBad 1 (lrInit lrBad ['a']) = .done ⟨1, some ['a'],
      some (.rejIncorrect ['a'] (removeStateTag "State_0".toList)),
      List.intercalate [' '] (serCompounds (lrInit lrBad ['a'])).1,
      (serCompounds (lrInit lrBad ['a'])).2.1.flatten⟩ :=
  (lr_c5_classify lrBad 1 (lrInit lrBad ['a']) 1 ⟨none, some ['a']⟩ ['a']
    ⟨some "State_0".toList, some []⟩ "State_0".toList
    [(['a'], "foo".toList)] "foo".toList
    (by decide) (by decide) (by decide) (by decide) (by decide) (by decide)
    (by decide)).2.2.2 (by decide) (by decide) (by decide)

/-- Python indexing at a non-negative in-range position. -/
lemma pyIdx_ofNat {α : Type} (l : List α) (n : Nat) (h : n < l.length) :
    pyIdx l (n : Int) = l[n]? := by
  unfold pyIdx
  rw [if_pos (Int.natCast_nonneg n), if_pos (by exact_mod_cast h)]
  simp

/-- The pending-compound scan skips a settled prefix. -/
lemma findPend_append_settled {l1 l2 : List Compound}
    (h : ∀ c ∈ l1, c.state.isSome) :
    findPend (l1 ++ l2) = (findPend l2).map fun p => (l1.length + p.1, p.2) := by
  induction l1 with
  | nil => simp
  | cons c rest ih =>
    have hc := h c (List.mem_cons_self ..)
    have hcs : ¬(c.state = none) := by
      intro he; rw [he] at hc; simp at hc
    simp only [List.cons_append]
    rw [show findPend (c :: (rest ++ l2)) =
        (if c.state = none then some (0, c)
         else (findPend (rest ++ l2)).map fun p => (p.1 + 1, p.2)) from rfl]
    rw [if_neg hcs, ih fun d hd => h d (List.mem_cons_of_mem c hd)]
    cases hf : findPend l2 with
    | none => rfl
    | some p =>
      simp only [Option.map_some', Option.some.injEq, Prod.mk.injEq,
        List.length_cons]
      exact ⟨by omega, trivial⟩

/-- The pending-compound scan stops at a pending head. -/
lemma findPend_cons_pending {comp : Compound} (h : comp.state = none)
    (post : List Compound) : findPend (comp :: post) = some (0, comp) := by
  unfold findPend
  rw [if_pos h]

/-- When the `k` compounds below the boundary carry exactly the right-hand
side symbols, the match loop runs to completion collecting them from the
boundary downwards. -/
lemma scanReduceGo_all_match (pre del tail : List Compound) (rhs : Str)
    (hlen : del.length = rhs.length)
    (hidx : ∀ m, m < rhs.length →
      (del[m]?).map Compound.symbol = some (some [rhs.getD m ' '])) :
    ∀ m : Nat, m ≤ rhs.length → ∀ acc : List Compound,
      scanReduceGo (pre ++ del ++ tail)
          ((pre.length + rhs.length : Nat) : Int) rhs rhs.length m acc =
        .valid (acc ++ (del.take m).reverse) := by
  intro m
  induction m with
  | zero => intro hm acc; simp [scanReduceGo]
  | succ m ih =>
    intro hm acc
    have hmk : m < rhs.length := by omega
    have hidxeq : ((pre.length + rhs.length : Nat) : Int) -
        ((rhs.length - m : Nat) : Int) = ((pre.length + m : Nat) : Int) := by
      rw [Nat.cast_sub hmk.le]
      push_cast
      ring
    have hget : (pre ++ del ++ tail)[pre.length + m]? = del[m]? := by
      rw [List.append_assoc]
      rw [List.getElem?_append_right (by omega)]
      rw [List.getElem?_append_left (by omega)]
      congr 1
      omega
    obtain ⟨c, hc, hcs⟩ : ∃ c, del[m]? = some c ∧
        c.symbol = some [rhs.getD m ' '] := by
      have := hidx m hmk
      cases hdc : del[m]? with
      | none => rw [hdc] at this; simp at this
      | some c =>
        rw [hdc] at this
        simp only [Option.map_some', Option.some.injEq] at this
        exact ⟨c, rfl, this⟩
    have hpy : pyIdx (pre ++ del ++ tail)
        (((pre.length + rhs.length : Nat) : Int) -
          ((rhs.length - m : Nat) : Int)) = some c := by
      rw [hidxeq, pyIdx_ofNat _ _ (by simp [List.length_append]; omega), hget,
        hc]
    unfold scanReduceGo
    rw [hpy]
    simp only [hcs, if_true]
    rw [ih (by omega) (acc ++ [c])]
    rw [List.take_succ, hc]
    simp

/-- The whole match loop succeeds and collects the matched compounds in
reverse order. -/
lemma scanReduce_all_match (pre del tail : List Compound) (rhs : Str)
    (hlen : del.length = rhs.length)
    (hidx : ∀ m, m < rhs.length →
      (del[m]?).map Compound.symbol = some (some [rhs.getD m ' '])) :
    scanReduce (pre ++ del ++ tail) ((pre.length + rhs.length : Nat) : Int)
      rhs = .valid del.reverse := by
  unfold scanReduce
  rw [scanReduceGo_all_match pre del tail rhs hlen hidx rhs.length
    (le_refl _) []]
  rw [← hlen, List.take_length]
  simp

/-! ### Claim C2 -/

/-- Claim C2 as stated is false: on `lrMid` after shifting `i`, the
reduction `T->i` fires with lookahead `+` while the pending `x` is still
behind it; the source inserts the new pending `T` at the second-to-last
position — between the pending `+`/`x` — not at the position immediately
after the truncated stack and before all remaining pending compounds. -/
theorem lr_c2_counterexample :
    lrStep lrMid 2 csMid = .cont
      ⟨2, some ['+'], some (.reverse "T->i".toList), "0 5".toList,
        "i+x".toList⟩
      [⟨some "State_0".toList, some []⟩, ⟨none, some ['+']⟩,
        ⟨none, some ['T']⟩, ⟨none, some ['x']⟩] ∧
    ([⟨some "State_0".toList, some []⟩, ⟨none, some ['+']⟩,
        ⟨none, some ['T']⟩, ⟨none, some ['x']⟩] : List Compound) ≠
      [⟨some "State_0".toList, some []⟩, ⟨none, some ['T']⟩,
        ⟨none, some ['+']⟩, ⟨none, some ['x']⟩] := by
  constructor
  · decide
  · decide

/-- Claim C2, amended: when a Reduce fires and the `k` compounds before the
first pending compound carry exactly the right-hand-side symbols, the step
removes every compound equal to one of those `k` (exactly those `k` when
nothing else in the sequence equals one of them, as hypothesised here) and
inserts the new pending compound carrying the left-hand symbol immediately
before the LAST element of the shortened sequence — which is the boundary
position only when a single pending compound remains. -/
theorem lr_c2_reduce_step (lr : LR) (n : Nat) (pre del post : List Compound)
    (comp pc : Compound) (t ps : Str) (acts : List (Str × Str))
    (lhs : Char) (arest : Str)
    (hsettled : ∀ c ∈ pre ++ del, c.state.isSome)
    (hcomp : comp.state = none)
    (hsym : comp.symbol = some t)
    (hpc : (pre ++ del).getLast? = some pc)
    (hps : pc.state = some ps)
    (hrow : lookupStr lr.table ps = some acts)
    (hact : lookupStr acts t = some (lhs :: arest))
    (hnacc : lowerStr (lhs :: arest) ≠ acceptLit)
    (htag : startsWithTag stateTag (lhs :: arest) = false)
    (harr : hasArrow (lhs :: arest) = true)
    (hmatch : del.map Compound.symbol =
      ((lhs :: arest).drop 3).map fun c => some [c])
    (hWF : ∀ c ∈ (pre ++ del) ++ comp :: post, c.symbol.isSome)
    (hnocol : ∀ c ∈ pre ++ post, c ∉ del) :
    lrStep lr n ((pre ++ del) ++ comp :: post) =
      .cont ⟨n, some t, some (.reverse (lhs :: arest)),
        List.intercalate [' ']
          (serCompounds ((pre ++ del) ++ comp :: post)).1,
        (serCompounds ((pre ++ del) ++ comp :: post)).2.1.flatten⟩
        (insertAt (pre ++ comp :: post) (pre.length + post.length)
          ⟨none, some [lhs]⟩) := by
  have hk : del.length = ((lhs :: arest).drop 3).length := by
    have := congrArg List.length hmatch
    simpa using this
  have hfp : findPend ((pre ++ del) ++ comp :: post) =
      some ((pre ++ del).length, comp) := by
    rw [findPend_append_settled hsettled, findPend_cons_pending hcomp]
    rfl
  have hne : pre ++ del ≠ [] := by
    intro he; rw [he] at hpc; simp at hpc
  have hlp : 0 < (pre ++ del).length := List.length_pos.mpr hne
  have hprev : pyIdx ((pre ++ del) ++ comp :: post)
      (((pre ++ del).length : Int) - 1) = some pc := by
    have hcast : (((pre ++ del).length : Nat) : Int) - 1 =
        (((pre ++ del).length - 1 : Nat) : Int) := by omega
    rw [hcast, pyIdx_ofNat _ _ (by
      have h2 := List.length_append (pre ++ del) (comp :: post)
      omega)]
    rw [List.getElem?_append_left (by omega)]
    rw [← List.getLast?_eq_getElem?]
    exact hpc
  have hidx : ∀ m, m < ((lhs :: arest).drop 3).length →
      (del[m]?).map Compound.symbol =
        some (some [((lhs :: arest).drop 3).getD m ' ']) := by
    intro m hm
    have hcg := congrArg (fun l => l[m]?) hmatch
    simp only [List.getElem?_map] at hcg
    rw [hcg, List.getElem?_eq_getElem hm, List.getD_eq_getElem _ ' ' hm]
    rfl
  have hscan : scanReduce ((pre ++ del) ++ comp :: post)
      (((pre ++ del).length : Nat) : Int) ((lhs :: arest).drop 3) =
      .valid del.reverse := by
    have h1 : (((pre ++ del).length : Nat) : Int) =
        ((pre.length + ((lhs :: arest).drop 3).length : Nat) : Int) := by
      rw [List.length_append, hk]
    rw [h1]
    exact scanReduce_all_match pre del (comp :: post) _ hk hidx
  have hmiss : (serCompounds ((pre ++ del) ++ comp :: post)).2.2 = false :=
    serCompounds_no_miss hWF
  have hfil : List.filter (fun c => decide (c ∉ del.reverse))
      ((pre ++ del) ++ comp :: post) = pre ++ comp :: post := by
    rw [List.filter_append, List.filter_append]
    have hpre : List.filter (fun c => decide (c ∉ del.reverse)) pre = pre := by
      apply List.filter_eq_self.mpr
      intro c hcp
      simp only [decide_eq_true_eq, List.mem_reverse]
      exact hnocol c (List.mem_append_left post hcp)
    have hdel : List.filter (fun c => decide (c ∉ del.reverse)) del = [] := by
      rw [List.filter_eq_nil_iff]
      intro c hcd
      simp [List.mem_reverse, hcd]
    have hcp2 : List.filter (fun c => decide (c ∉ del.reverse))
        (comp :: post) = comp :: post := by
      apply List.filter_eq_self.mpr
      intro c hcp
      simp only [decide_eq_true_eq, List.mem_reverse]
      rcases List.mem_cons.mp hcp with rfl | hpost
      · intro hmem
        have hset := hsettled c (List.mem_append_right pre hmem)
        rw [hcomp] at hset
        exact absurd hset (by simp)
      · exact hnocol c (List.mem_append_right pre hpost)
    rw [hpre, hdel, hcp2]
    simp
  have hlen2 : (pre ++ comp :: post).length - 1 =
      pre.length + post.length := by
    simp only [List.length_append, List.length_cons]
    omega
  unfold lrStep lrScan
  simp only [hfp, hsym, hprev, hps, hrow, hact]
  rw [if_neg hnacc, if_neg (by simp [htag]), if_pos harr]
  rw [hscan]
  simp only [hfil, hlen2]
  unfold finishStep
  rw [List.append_assoc] at hmiss
  simp [hmiss]

theorem lr_c2_reduce_step_witness :
    lrStep lrMid 2 (([⟨some "State_0".toList, some []⟩] ++
        [⟨some "State_5".toList, some ['i']⟩]) ++
        ⟨none, some ['+']⟩ :: [⟨none, some ['x']⟩]) =
      .cont ⟨2, some ['+'], some (.reverse "T->i".toList),
        List.intercalate [' ']
          (serCompounds (([⟨some "State_0".toList, some []⟩] ++
            [⟨some "State_5".toList, some ['i']⟩]) ++
            ⟨none, some ['+']⟩ :: [⟨none, some ['x']⟩])).1,
        (serCompounds (([⟨some "State_0".toList, some []⟩] ++
          [⟨some "State_5".toList, some ['i']⟩]) ++
          ⟨none, some ['+']⟩ :: [⟨none, some ['x']⟩])).2.1.flatten⟩
        (insertAt ([⟨some "State_0".toList, some []⟩] ++
          ⟨none, some ['+']⟩ :: [⟨none, some ['x']⟩]) (1 + 1)
          ⟨none, some ['T']⟩) :=
  lr_c2_reduce_step lrMid 2 [⟨some "State_0".toList, some []⟩]
    [⟨some "State_5".toList, some ['i']⟩] [⟨none, some ['x']⟩]
    ⟨none, some ['+']⟩ ⟨some "State_5".toList, some ['i']⟩ ['+']
    "State_5".toList [(['+'], "T->i".toList)] 'T' "->i".toList
    (by decide) (by decide) (by decide) (by decide) (by decide) (by decide)
    (by decide) (by decide) (by decide) (by decide) (by decide) (by decide)
    (by decide)
